import Mathlib

/-!
# Verification of the Stefone portfolio engine (`src/assets/app.js`)

Shallow embedding of the data-normalisation / load / filter / sort pipeline of
the site script.  JavaScript values obtained from parsed JSON are modelled by
the inductive type `JVal` (JSON numbers are modelled as integers; no claim
depends on float formatting).  JavaScript exceptions (the TypeError thrown by
a property access on `null`, and the explicit `throw` in `loadProjects`) are
modelled with `Option` / `Except`.  The method `localeCompare` is
locale-dependent; it is modelled here by code-point lexicographic comparison
(`lexCompare`), a consistent linear order that agrees with every locale on
ASCII digit strings such as ISO dates.
-/

/-- A JavaScript value obtainable from `JSON.parse`. -/
inductive JVal where
  | jnull : JVal
  | jbool : Bool → JVal
  | jnum : Int → JVal
  | jstr : String → JVal
  | jarr : List JVal → JVal
  | jobj : List (String × JVal) → JVal

/-- JavaScript truthiness of a (non-`undefined`) value. -/
def truthy : JVal → Bool
  | .jnull => false
  | .jbool b => b
  | .jnum n => n != 0
  | .jstr s => s != ""
  | .jarr _ => true
  | .jobj _ => true

/-- Truthiness where `none` models JavaScript `undefined`. -/
def truthyOpt : Option JVal → Bool
  | none => false
  | some v => truthy v

mutual
/-- JavaScript `String(v)` conversion. -/
def jToString : JVal → String
  | .jnull => "null"
  | .jbool b => if b then "true" else "false"
  | .jnum n => toString n
  | .jstr s => s
  | .jarr xs => String.intercalate "," (jArrStrings xs)
  | .jobj _ => "[object Object]"

/-- Elements of an array render with `null` elements as the empty string. -/
def jArrStrings : List JVal → List String
  | [] => []
  | .jnull :: rest => "" :: jArrStrings rest
  | x :: rest => jToString x :: jArrStrings rest
end

/-- The WhiteSpace and LineTerminator characters stripped by the trim
method of JavaScript strings. -/
def isJsWs (c : Char) : Bool :=
  c == '\t' || c == '\n' || c == '\x0b' || c == '\x0c' || c == '\r' ||
  c == ' ' || c == '\u00a0' || c == '\u1680' ||
  c == '\u2000' || c == '\u2001' || c == '\u2002' || c == '\u2003' ||
  c == '\u2004' || c == '\u2005' || c == '\u2006' || c == '\u2007' ||
  c == '\u2008' || c == '\u2009' || c == '\u200a' ||
  c == '\u2028' || c == '\u2029' || c == '\u202f' || c == '\u205f' ||
  c == '\u3000' || c == '\ufeff'

/-- Trimming on the character list: drop whitespace at both ends. -/
def jsTrimL (l : List Char) : List Char :=
  ((l.dropWhile isJsWs).reverse.dropWhile isJsWs).reverse

/-- Model of the trim method of JavaScript strings. -/
def jsTrim (s : String) : String := ⟨jsTrimL s.data⟩

/-- Model of the toLowerCase method (ASCII range; the claims only exercise
ASCII case folding). -/
def jsToLower (s : String) : String := ⟨s.data.map Char.toLower⟩

/-- Decides whether `pat` is an initial segment of `l`. -/
def startsWithL : List Char → List Char → Bool
  | [], _ => true
  | _ :: _, [] => false
  | a :: as, b :: bs => a == b && startsWithL as bs

/-- Decides whether `sub` occurs contiguously in `l`. -/
def hasSubstr : List Char → List Char → Bool
  | [], sub => startsWithL sub []
  | c :: rest, sub => startsWithL sub (c :: rest) || hasSubstr rest sub

/-- Model of the includes method of JavaScript strings. -/
def jsIncludes (s sub : String) : Bool := hasSubstr s.data sub.data

/-- Model of the startsWith method of JavaScript strings. -/
def jsStartsWith (s pat : String) : Bool := startsWithL pat.data s.data

/-- Model of the endsWith method of JavaScript strings. -/
def jsEndsWith (s suf : String) : Bool := startsWithL suf.data.reverse s.data.reverse

/-- Code-point lexicographic three-way comparison on character lists. -/
def lexCompareL : List Char → List Char → Int
  | [], [] => 0
  | [], _ :: _ => -1
  | _ :: _, [] => 1
  | a :: as, b :: bs =>
      if a.toNat < b.toNat then -1
      else if b.toNat < a.toNat then 1
      else lexCompareL as bs

/-- Model of `localeCompare` (see the header comment). -/
def lexCompare (a b : String) : Int := lexCompareL a.data b.data

/-- The canonical record produced by `normalizeProject` (spec section 3). -/
structure ProjectRecord where
  title : String
  slug : String
  description : String
  thumbnail : String
  tags : List String
  category : String
  featured : Bool
  date : String
  link : String
deriving DecidableEq, Repr

/-- JavaScript property access `p.k` on a value that is not `null`
(on `null` the access throws; `normalizeProject` handles that case).
Non-object JSON values have none of the properties the script reads. -/
def getProp (p : JVal) (k : String) : Option JVal :=
  match p with
  | .jobj fields => fields.lookup k
  | _ => none

/-- The idiom `String(v || dflt)` where `dflt` is a string literal and `none`
models a missing property. -/
def jorString (v : Option JVal) (dflt : String) : String :=
  match v with
  | some w => if truthy w then jToString w else dflt
  | none => dflt

/-- The tags field rule: an array maps each element through `String(t).trim()`
and keeps the truthy (non-empty) results; anything else yields the empty
sequence. -/
def normTags : Option JVal → List String
  | some (.jarr xs) => (xs.map fun t => jsTrim (jToString t)).filter (fun s => s != "")
  | _ => []

/-- The fallback `|| "Other"` applied after trimming the category. -/
def orOther (s : String) : String := if s = "" then "Other" else s

/-- The link field rule: `p.link ? String(p.link).trim() : ""`. -/
def normLink : Option JVal → String
  | some w => if truthy w then jsTrim (jToString w) else ""
  | none => ""

/-- The object literal built by `normalizeProject` for a non-`null` input. -/
def normalizeFields (p : JVal) : ProjectRecord where
  title := jsTrim (jorString (getProp p "title") "")
  slug := jsTrim (jorString (getProp p "slug") "")
  description := jsTrim (jorString (getProp p "description") "")
  thumbnail := jsTrim (jorString (getProp p "thumbnail") "")
  tags := normTags (getProp p "tags")
  category := orOther (jsTrim (jorString (getProp p "category") "Other"))
  featured := truthyOpt (getProp p "featured")
  date := jsTrim (jorString (getProp p "date") "")
  link := normLink (getProp p "link")

/-- Model of `normalizeProject` from `src/assets/app.js`.  Property access on
`null` throws a TypeError in JavaScript, modelled by `none`; every other JSON
value yields a record. -/
def normalizeProject (p : JVal) : Option ProjectRecord :=
  match p with
  | .jnull => none
  | _ => some (normalizeFields p)

/-- Model of `.map(normalizeProject)` with JavaScript exception propagation:
the first element that throws aborts the whole map. -/
def normalizeAll : List JVal → Option (List ProjectRecord)
  | [] => some []
  | x :: xs =>
    match normalizeProject x, normalizeAll xs with
    | some r, some rs => some (r :: rs)
    | _, _ => none

/-- Whether the top-level parsed value is an array. -/
def isJArr : JVal → Bool
  | .jarr _ => true
  | _ => false

/-- The expression `Array.isArray(data) ? data : []`. -/
def toElems : JVal → List JVal
  | .jarr xs => xs
  | _ => []

/-- The body of `loadProjects` after the response has been parsed:
`(Array.isArray(data) ? data : []).map(normalizeProject)
   .filter(p => p.title && p.slug)`. -/
def processData (data : JVal) : Option (List ProjectRecord) :=
  match normalizeAll (toElems data) with
  | some rs => some (rs.filter fun p => p.title != "" && p.slug != "")
  | none => none

/-- The two failure modes of `loadProjects`: the explicit thrown `Error`
carrying a message, and the TypeError raised while normalising a `null`
element. -/
inductive LoadErr where
  | loadError : String → LoadErr
  | typeError : LoadErr
deriving DecidableEq, Repr

/-- Model of `loadProjects` from `src/assets/app.js`, as a function of the
fetch response: `ok` is `res.ok` and `body` the parsed JSON body. -/
def loadProjects (ok : Bool) (body : JVal) : Except LoadErr (List ProjectRecord) :=
  if ok = false then Except.error (LoadErr.loadError "Couldn\x27t load projects.json")
  else
    match processData body with
    | some rs => Except.ok rs
    | none => Except.error LoadErr.typeError

/-- Model of `getSiteRoot` from `src/assets/app.js`: the argument is the
content of the site-root meta tag, `none` when the tag is absent. -/
def getSiteRoot (metaContent : Option String) : String :=
  let root0 :=
    match metaContent with
    | some c => if c != "" then jsTrim c else "./"
    | none => "./"
  let root1 := if root0 = "" then "./" else root0
  if jsEndsWith root1 "/" then root1 else root1 ++ "/"

/-- Model of `isExternal` from `src/assets/app.js`: the case-insensitive
regular expression test for a leading `http://` or `https://`. -/
def isExternal (url : String) : Bool :=
  jsStartsWith (jsToLower url) "http://" || jsStartsWith (jsToLower url) "https://"

/-- The replacement `path.replace(/^\//, "")`: strip at most one leading
slash. -/
def stripLeadingSlash (s : String) : String :=
  match s.data with
  | '/' :: rest => ⟨rest⟩
  | _ => s

/-- Model of `resolveAssetPath` from `src/assets/app.js`, parameterised by the
module constant `SITE_ROOT`. -/
def resolveAssetPath (siteRoot path : String) : String :=
  if path = "" then siteRoot ++ "assets/thumbs/placeholder.svg"
  else if isExternal path || jsStartsWith path "data:" then path
  else siteRoot ++ stripLeadingSlash path

/-- Model of `normalizeText` from `src/assets/app.js`: on an actual string
`s`, `String(s || "")` is `s` itself. -/
def normalizeText (s : String) : String := jsToLower s

/-- The haystack built by `matches`: searchable fields lowercased and joined
with single spaces. -/
def searchHay (p : ProjectRecord) : String :=
  String.intercalate " "
    ((p.title :: p.description :: p.category :: p.tags).map normalizeText)

/-- Model of `matches` from `src/assets/app.js`. -/
def projMatches (project : ProjectRecord) (query : String) : Bool :=
  let q := jsTrim (normalizeText query)
  if q = "" then true
  else jsIncludes (searchHay project) q

/-- The filter inside `applyFilters` from `src/assets/app.js`. -/
def applyFilters (allProjects : List ProjectRecord) (cat tag q : String) :
    List ProjectRecord :=
  allProjects.filter fun p =>
    ((cat == "All") || (p.category == cat)) &&
    ((tag == "All") || p.tags.contains tag) &&
    projMatches p q

/-- The comparator passed to `.sort` in `renderProjectsList`. -/
def projectCompare (a b : ProjectRecord) : Int :=
  if a.date != "" && b.date != "" then lexCompare b.date a.date
  else if a.date != "" then -1
  else if b.date != "" then 1
  else lexCompare a.title b.title

/-- The one-time sort applied after load.  The sort method of JavaScript
arrays is a stable comparator sort; it is modelled by the stable
`List.insertionSort` on the non-positive half of the comparator. -/
def sortProjects (l : List ProjectRecord) : List ProjectRecord :=
  l.insertionSort fun a b => projectCompare a b ≤ 0

/-- The list selected by `renderFeatured`:
`featured.length ? featured : projects.slice(0, limit)`. -/
def featuredList (projects : List ProjectRecord) (limit : Nat) : List ProjectRecord :=
  let featured := (projects.filter fun p => p.featured).take limit
  if featured.length = 0 then projects.take limit else featured

/-! ## Claim-side (specification) definitions

These definitions transcribe the words of the specification, to be compared
with the definitions above, which transcribe the source. -/

/-- Spec wording of the featured view (spec section 4.7): the records with
`featured = true` truncated to the limit; when no record is featured, the
first `limit` records in load order. -/
def specFeatured (projects : List ProjectRecord) (limit : Nat) : List ProjectRecord :=
  if projects.all (fun p => !p.featured) then projects.take limit
  else (projects.filter fun p => p.featured).take limit

/-- Spec category criterion: the selection is `"All"` or equals the record
category exactly. -/
def categoryOk (cat : String) (p : ProjectRecord) : Prop :=
  cat = "All" ∨ p.category = cat

/-- Spec tag criterion: the selection is `"All"` or occurs among the record
tags exactly. -/
def tagOk (tag : String) (p : ProjectRecord) : Prop :=
  tag = "All" ∨ tag ∈ p.tags

/-- The query criterion as literally claimed: the query is empty, or its
lowercasing is a substring of the lowercased haystack.  (No trimming.) -/
def queryOkLiteral (q : String) (p : ProjectRecord) : Prop :=
  q = "" ∨ jsIncludes (searchHay p) (normalizeText q) = true

/-- The amended query criterion: the query is lowercased and trimmed before
both the emptiness check and the substring test. -/
def queryOkTrimmed (q : String) (p : ProjectRecord) : Prop :=
  jsTrim (normalizeText q) = "" ∨
  jsIncludes (searchHay p) (jsTrim (normalizeText q)) = true

/-- Two records whose dates give no usable ordering difference: both dates
absent, or both present and comparing equal. -/
def dateTie (a b : ProjectRecord) : Prop :=
  (a.date = "" ∧ b.date = "") ∨
  (a.date ≠ "" ∧ b.date ≠ "" ∧ lexCompare a.date b.date = 0)

/-- The third clause of the sort claim as literally stated: in the sorted
output, any two records with no usable date ordering difference appear in
ascending title order. -/
def titleFallbackHolds (l : List ProjectRecord) : Prop :=
  (sortProjects l).Pairwise fun a b => dateTie a b → lexCompare a.title b.title ≤ 0

/-- What actually relates an earlier record to a later one in the sorted
output: dates descending where both are present, absent dates last, and the
title tiebreak only between two records that both lack a date. -/
def sortedRel (a b : ProjectRecord) : Prop :=
  (a.date ≠ "" → b.date ≠ "" → lexCompare b.date a.date ≤ 0)
  ∧ (a.date = "" → b.date = "")
  ∧ (a.date = "" → b.date = "" → lexCompare a.title b.title ≤ 0)

/-- Re-injection of a normalized record as a JSON object, for the idempotence
claim. -/
def recordToJVal (r : ProjectRecord) : JVal :=
  .jobj [("title", .jstr r.title), ("slug", .jstr r.slug),
         ("description", .jstr r.description), ("thumbnail", .jstr r.thumbnail),
         ("tags", .jarr (r.tags.map JVal.jstr)), ("category", .jstr r.category),
         ("featured", .jbool r.featured), ("date", .jstr r.date),
         ("link", .jstr r.link)]

/-! ## Helper lemmas -/

theorem dropWhile_self_eq {α} {p : α → Bool} (l : List α) :
    (l.dropWhile p).dropWhile p = l.dropWhile p := by
  induction l with
  | nil => rfl
  | cons a as ih =>
    rw [List.dropWhile_cons]
    split
    · exact ih
    · next h => rw [List.dropWhile_cons, if_neg h]

theorem dropWhile_first_false {α} {p : α → Bool} :
    ∀ {l : List α} {a : α} {as : List α}, l.dropWhile p = a :: as → p a = false := by
  intro l
  induction l with
  | nil => intro a as h; exact absurd h (by simp)
  | cons b bs ih =>
    intro a as h
    rw [List.dropWhile_cons] at h
    split at h
    · exact ih h
    · next hb =>
      cases h
      simpa using hb

theorem dropWhile_suffix_decomp {α} {p : α → Bool} (l : List α) :
    ∃ t, l = t ++ l.dropWhile p := by
  induction l with
  | nil => exact ⟨[], rfl⟩
  | cons a as ih =>
    rw [List.dropWhile_cons]
    split
    · obtain ⟨t, ht⟩ := ih
      exact ⟨a :: t, by rw [List.cons_append, ← ht]⟩
    · exact ⟨[], rfl⟩

theorem jsTrimL_left_fixed (l : List Char) :
    (jsTrimL l).dropWhile isJsWs = jsTrimL l := by
  unfold jsTrimL
  obtain ⟨t, ht⟩ := dropWhile_suffix_decomp (p := isJsWs) ((l.dropWhile isJsWs).reverse)
  cases her : ((l.dropWhile isJsWs).reverse.dropWhile isJsWs).reverse with
  | nil => rfl
  | cons a xs =>
    have h2 : l.dropWhile isJsWs =
        ((l.dropWhile isJsWs).reverse.dropWhile isJsWs).reverse ++ t.reverse := by
      have h3 := congrArg List.reverse ht
      simpa [List.reverse_append] using h3
    have hdd : l.dropWhile isJsWs = a :: (xs ++ t.reverse) := by
      rw [h2, her]; simp
    have hpa : isJsWs a = false := dropWhile_first_false hdd
    rw [List.dropWhile_cons, if_neg (by simp [hpa])]

theorem jsTrimL_idem (l : List Char) : jsTrimL (jsTrimL l) = jsTrimL l := by
  show (((jsTrimL l).dropWhile isJsWs).reverse.dropWhile isJsWs).reverse = jsTrimL l
  rw [jsTrimL_left_fixed]
  show ((((l.dropWhile isJsWs).reverse.dropWhile isJsWs).reverse).reverse.dropWhile
    isJsWs).reverse = _
  rw [List.reverse_reverse, dropWhile_self_eq]
  rfl

theorem jsTrim_idem (s : String) : jsTrim (jsTrim s) = jsTrim s := by
  show (⟨jsTrimL (jsTrimL s.data)⟩ : String) = ⟨jsTrimL s.data⟩
  rw [jsTrimL_idem]

theorem jsTrim_all_ws {s : String} (h : ∀ c ∈ s.data, isJsWs c = true) :
    jsTrim s = "" := by
  show (⟨jsTrimL s.data⟩ : String) = ""
  have h1 : s.data.dropWhile isJsWs = [] := List.dropWhile_eq_nil_iff.mpr h
  unfold jsTrimL
  rw [h1]
  rfl

theorem toLower_isJsWs {c : Char} (h : isJsWs c = true) : Char.toLower c = c := by
  simp only [isJsWs, Bool.or_eq_true, beq_iff_eq] at h
  repeat' rcases h with h | h
  all_goals decide

theorem lexCompareL_antisymm : ∀ x y : List Char, lexCompareL x y = - lexCompareL y x
  | [], [] => by simp [lexCompareL]
  | [], _ :: _ => by simp [lexCompareL]
  | _ :: _, [] => by simp [lexCompareL]
  | a :: as, b :: bs => by
    simp only [lexCompareL]
    by_cases h1 : a.toNat < b.toNat
    · simp [h1, Nat.lt_asymm h1]
    · by_cases h2 : b.toNat < a.toNat
      · simp [h1, h2]
      · simp [h1, h2, lexCompareL_antisymm as bs]

theorem lexCompareL_le_trans : ∀ x y z : List Char,
    lexCompareL x y ≤ 0 → lexCompareL y z ≤ 0 → lexCompareL x z ≤ 0
  | [], y, z => fun _ _ => by cases z <;> simp [lexCompareL]
  | _ :: _, [], _ => fun h _ => by simp [lexCompareL] at h
  | _ :: _, _ :: _, [] => fun _ h => by simp [lexCompareL] at h
  | a :: as, b :: bs, c :: cs => fun h1 h2 => by
    simp only [lexCompareL] at h1 h2 ⊢
    split_ifs at h1 h2 ⊢ <;> try omega
    all_goals exact lexCompareL_le_trans as bs cs h1 h2

theorem projectCompare_date_date {a b : ProjectRecord} (ha : a.date ≠ "")
    (hb : b.date ≠ "") : projectCompare a b = lexCompare b.date a.date := by
  unfold projectCompare
  rw [if_pos (by simp [ha, hb])]

theorem projectCompare_date_empty {a b : ProjectRecord} (ha : a.date ≠ "")
    (hb : b.date = "") : projectCompare a b = -1 := by
  unfold projectCompare
  rw [if_neg (by simp [hb]), if_pos (by simp [ha])]

theorem projectCompare_empty_date {a b : ProjectRecord} (ha : a.date = "")
    (hb : b.date ≠ "") : projectCompare a b = 1 := by
  unfold projectCompare
  rw [if_neg (by simp [ha]), if_neg (by simp [ha]), if_pos (by simp [hb])]

theorem projectCompare_empty_empty {a b : ProjectRecord} (ha : a.date = "")
    (hb : b.date = "") : projectCompare a b = lexCompare a.title b.title := by
  unfold projectCompare
  rw [if_neg (by simp [ha]), if_neg (by simp [ha]), if_neg (by simp [hb])]

theorem projectCompare_total (a b : ProjectRecord) :
    projectCompare a b ≤ 0 ∨ projectCompare b a ≤ 0 := by
  by_cases ha : a.date = "" <;> by_cases hb : b.date = ""
  · rw [projectCompare_empty_empty ha hb, projectCompare_empty_empty hb ha]
    have h := lexCompareL_antisymm a.title.data b.title.data
    unfold lexCompare
    omega
  · right; rw [projectCompare_date_empty hb ha]; omega
  · left; rw [projectCompare_date_empty ha hb]; omega
  · rw [projectCompare_date_date ha hb, projectCompare_date_date hb ha]
    have h := lexCompareL_antisymm a.date.data b.date.data
    unfold lexCompare
    omega

theorem projectCompare_le_trans {a b c : ProjectRecord}
    (h1 : projectCompare a b ≤ 0) (h2 : projectCompare b c ≤ 0) :
    projectCompare a c ≤ 0 := by
  by_cases ha : a.date = "" <;> by_cases hb : b.date = "" <;> by_cases hc : c.date = ""
  · rw [projectCompare_empty_empty ha hb] at h1
    rw [projectCompare_empty_empty hb hc] at h2
    rw [projectCompare_empty_empty ha hc]
    exact lexCompareL_le_trans a.title.data b.title.data c.title.data h1 h2
  · rw [projectCompare_empty_date hb hc] at h2; omega
  · rw [projectCompare_empty_date ha hb] at h1; omega
  · rw [projectCompare_empty_date ha hb] at h1; omega
  · rw [projectCompare_date_empty ha hc]; omega
  · rw [projectCompare_empty_date hb hc] at h2; omega
  · rw [projectCompare_date_empty ha hc]; omega
  · rw [projectCompare_date_date ha hb] at h1
    rw [projectCompare_date_date hb hc] at h2
    rw [projectCompare_date_date ha hc]
    exact lexCompareL_le_trans c.date.data b.date.data a.date.data h2 h1

theorem le_to_sortedRel {a b : ProjectRecord} (h : projectCompare a b ≤ 0) :
    sortedRel a b := by
  refine ⟨?_, ?_, ?_⟩
  · intro ha hb; rwa [projectCompare_date_date ha hb] at h
  · intro ha
    by_contra hb
    rw [projectCompare_empty_date ha hb] at h
    omega
  · intro ha hb; rwa [projectCompare_empty_empty ha hb] at h

/-- C1 (amended): the one-time sort is a permutation of the loaded list, and
in the sorted output every earlier record relates to every later one by:
dates descending under lexicographic comparison when both are present; a
record with an empty date never precedes one with a non-empty date; and the
ascending-title fallback exactly when both records lack a date.  (The claim's
title fallback does not apply between records with equal non-empty dates;
there the stable sort keeps load order — see the counterexample.) -/
theorem sort_order_spec (l : List ProjectRecord) :
    (sortProjects l).Perm l ∧ (sortProjects l).Pairwise sortedRel := by
  constructor
  · exact List.perm_insertionSort _ l
  · haveI : IsTrans ProjectRecord (fun a b => projectCompare a b ≤ 0) :=
      ⟨fun _ _ _ => projectCompare_le_trans⟩
    haveI : IsTotal ProjectRecord (fun a b => projectCompare a b ≤ 0) :=
      ⟨projectCompare_total⟩
    exact (List.sorted_insertionSort _ l).imp fun h => le_to_sortedRel h

/-- C1 counterexample: two loadable records with equal non-empty dates and
titles "B", "A" (in that load order) stay in load order after the sort, so
the sorted output is not falling back to ascending titles among records with
no usable date ordering difference, contradicting the claim as stated. -/
theorem sort_title_fallback_cex :
    processData (JVal.jarr
      [JVal.jobj [("title", JVal.jstr "B"), ("slug", JVal.jstr "b"),
                  ("date", JVal.jstr "2024-01-01")],
       JVal.jobj [("title", JVal.jstr "A"), ("slug", JVal.jstr "a"),
                  ("date", JVal.jstr "2024-01-01")]]) =
      some [⟨"B", "b", "", "", [], "Other", false, "2024-01-01", ""⟩,
            ⟨"A", "a", "", "", [], "Other", false, "2024-01-01", ""⟩]
    ∧ ¬ titleFallbackHolds
        [⟨"B", "b", "", "", [], "Other", false, "2024-01-01", ""⟩,
         ⟨"A", "a", "", "", [], "Other", false, "2024-01-01", ""⟩] := by
  constructor
  · decide
  · intro h
    unfold titleFallbackHolds at h
    rw [show sortProjects
          [⟨"B", "b", "", "", [], "Other", false, "2024-01-01", ""⟩,
           ⟨"A", "a", "", "", [], "Other", false, "2024-01-01", ""⟩] =
          [⟨"B", "b", "", "", [], "Other", false, "2024-01-01", ""⟩,
           ⟨"A", "a", "", "", [], "Other", false, "2024-01-01", ""⟩] from by decide] at h
    have h2 := (List.pairwise_cons.mp h).1
      ⟨"A", "a", "", "", [], "Other", false, "2024-01-01", ""⟩ (by simp)
    exact absurd (h2 (Or.inr ⟨by decide, by decide, by decide⟩)) (by decide)

theorem jsToLower_data (s : String) : (jsToLower s).data = s.data.map Char.toLower := rfl

theorem projMatches_iff (p : ProjectRecord) (q : String) :
    projMatches p q = true ↔ queryOkTrimmed q p := by
  show (if jsTrim (normalizeText q) = "" then true
        else jsIncludes (searchHay p) (jsTrim (normalizeText q))) = true ↔ _
  unfold queryOkTrimmed
  by_cases hq : jsTrim (normalizeText q) = ""
  · simp [hq]
  · simp [hq]

/-- C2 (amended): for every list and every category, tag and query selection,
a record is visible iff it is in the list and passes all three per-criterion
predicates — with the query lowercased and trimmed before both the emptiness
check and the substring test against the space-joined lowercased
title/description/category/tags haystack; and the filter can be computed as
sequential single-criterion filters in any order. -/
theorem filter_intersection_spec (l : List ProjectRecord) (c t q : String) :
    (∀ p, p ∈ applyFilters l c t q ↔
      p ∈ l ∧ categoryOk c p ∧ tagOk t p ∧ queryOkTrimmed q p)
    ∧ applyFilters l c t q =
        (((l.filter fun p => projMatches p q).filter
          fun p => (t == "All") || p.tags.contains t).filter
          fun p => (c == "All") || (p.category == c))
    ∧ applyFilters l c t q =
        (((l.filter fun p => (c == "All") || (p.category == c)).filter
          fun p => projMatches p q).filter
          fun p => (t == "All") || p.tags.contains t) := by
  refine ⟨?_, ?_, ?_⟩
  · intro p
    simp only [applyFilters, List.mem_filter, Bool.and_eq_true, Bool.or_eq_true,
      beq_iff_eq, categoryOk, tagOk, projMatches_iff, List.contains, List.elem_iff]
    tauto
  · rw [applyFilters, List.filter_filter, List.filter_filter]
  · rw [applyFilters, List.filter_filter, List.filter_filter]
    refine List.filter_congr ?_
    intro p _
    cases hc : (c == "All") || (p.category == c) <;>
      cases ht : (t == "All") || p.tags.contains t <;>
      cases hm : projMatches p q <;> rfl

/-- C2 counterexample: the whitespace-only query `"  "` on a loadable record
whose haystack is `"a b c"`: the record stays visible (the code trims the
query to empty), but the claim's literal query predicate — empty or a
case-insensitive substring — is false, since `"  "` is neither empty nor a
substring of the haystack (nor of any other concatenation of the fields).
So the claimed set equality fails at this instance. -/
theorem filter_query_literal_cex :
    processData (JVal.jarr [JVal.jobj [("title", JVal.jstr "a"), ("slug", JVal.jstr "a"),
        ("description", JVal.jstr "b"), ("category", JVal.jstr "c")]]) =
      some [⟨"a", "a", "b", "", [], "c", false, "", ""⟩]
    ∧ (⟨"a", "a", "b", "", [], "c", false, "", ""⟩ : ProjectRecord) ∈
        applyFilters [⟨"a", "a", "b", "", [], "c", false, "", ""⟩] "All" "All" "  "
    ∧ ¬ queryOkLiteral "  " ⟨"a", "a", "b", "", [], "c", false, "", ""⟩
    ∧ ¬ ((⟨"a", "a", "b", "", [], "c", false, "", ""⟩ : ProjectRecord) ∈
          applyFilters [⟨"a", "a", "b", "", [], "c", false, "", ""⟩] "All" "All" "  " ↔
        ((⟨"a", "a", "b", "", [], "c", false, "", ""⟩ : ProjectRecord) ∈
            [(⟨"a", "a", "b", "", [], "c", false, "", ""⟩ : ProjectRecord)]
          ∧ categoryOk "All" ⟨"a", "a", "b", "", [], "c", false, "", ""⟩
          ∧ tagOk "All" ⟨"a", "a", "b", "", [], "c", false, "", ""⟩
          ∧ queryOkLiteral "  " ⟨"a", "a", "b", "", [], "c", false, "", ""⟩)) := by
  have hq : ¬ queryOkLiteral "  " ⟨"a", "a", "b", "", [], "c", false, "", ""⟩ := by
    intro h
    rcases h with h | h
    · exact absurd h (by decide)
    · exact absurd h (by decide)
  refine ⟨by decide, by decide, hq, ?_⟩
  intro hiff
  exact hq (hiff.mp (by decide)).2.2.2

/-- C10: a query consisting only of whitespace characters is treated like the
empty query: the match predicate accepts every record, so such a query
filters out nothing. -/
theorem whitespace_query_matches (p : ProjectRecord) (q : String)
    (h : ∀ c ∈ q.data, isJsWs c = true) : projMatches p q = true := by
  have hlow : ∀ c ∈ (normalizeText q).data, isJsWs c = true := by
    intro c hc
    rw [normalizeText, jsToLower_data] at hc
    obtain ⟨d, hd, rfl⟩ := List.mem_map.mp hc
    rw [toLower_isJsWs (h d hd)]
    exact h d hd
  show (if jsTrim (normalizeText q) = "" then true
        else jsIncludes (searchHay p) (jsTrim (normalizeText q))) = true
  rw [jsTrim_all_ws hlow]
  rfl

/-- Witness for C10 at a concrete record and the query of a space and a
tab. -/
theorem whitespace_query_matches_witness :
    projMatches ⟨"a", "a", "b", "", [], "c", false, "", ""⟩ " \t" = true :=
  whitespace_query_matches ⟨"a", "a", "b", "", [], "c", false, "", ""⟩ " \t" (by decide)

theorem string_data_append (s u : String) : (s ++ u).data = s.data ++ u.data := by
  cases s; cases u; rfl

theorem jsEndsWith_append_slash (s : String) : jsEndsWith (s ++ "/") "/" = true := by
  unfold jsEndsWith
  rw [string_data_append]
  show startsWithL ['/'] ((s.data ++ ['/']).reverse) = true
  rw [List.reverse_append]
  simp [startsWithL]

theorem ends_after_fix (s : String) :
    jsEndsWith (if jsEndsWith s "/" then s else s ++ "/") "/" = true := by
  by_cases h : jsEndsWith s "/" = true
  · rw [if_pos h]; exact h
  · rw [if_neg (by simp [h])]; exact jsEndsWith_append_slash s

/-- C9: the site root always ends with a path separator, and is exactly
`"./"` when the meta value is absent or empty. -/
theorem site_root_spec :
    (∀ mc : Option String, jsEndsWith (getSiteRoot mc) "/" = true)
    ∧ getSiteRoot none = "./"
    ∧ getSiteRoot (some "") = "./" := by
  refine ⟨?_, by decide, by decide⟩
  intro mc
  unfold getSiteRoot
  exact ends_after_fix _

/-- C7: thumbnail resolution — empty path yields the placeholder under the
site root; an external http(s) URL or a `data:` URI is returned verbatim; any
other path is prefixed with the site root after stripping at most one leading
slash; and under site root `"./"` the two forms of the round-trip example
resolve identically. -/
theorem resolve_asset_path_spec :
    (∀ root : String, resolveAssetPath root "" = root ++ "assets/thumbs/placeholder.svg")
    ∧ (∀ root path, isExternal path = true → resolveAssetPath root path = path)
    ∧ (∀ root path, jsStartsWith path "data:" = true → resolveAssetPath root path = path)
    ∧ (∀ root path, path ≠ "" → isExternal path = false →
        jsStartsWith path "data:" = false →
        resolveAssetPath root path = root ++ stripLeadingSlash path)
    ∧ resolveAssetPath "./" "assets/a.png" = "./assets/a.png"
    ∧ resolveAssetPath "./" "/assets/a.png" = "./assets/a.png" := by
  refine ⟨?_, ?_, ?_, ?_, by decide, by decide⟩
  · intro root
    unfold resolveAssetPath
    rw [if_pos rfl]
  · intro root path h
    have hne : path ≠ "" := by
      intro he; subst he; exact absurd h (by decide)
    unfold resolveAssetPath
    rw [if_neg hne, if_pos (by simp [h])]
  · intro root path h
    have hne : path ≠ "" := by
      intro he; subst he; exact absurd h (by decide)
    unfold resolveAssetPath
    rw [if_neg hne, if_pos (by simp [h])]
  · intro root path h1 h2 h3
    unfold resolveAssetPath
    rw [if_neg h1, if_neg (by simp [h2, h3])]

/-- Witness for C7 at concrete paths of each kind. -/
theorem resolve_asset_path_spec_witness :
    resolveAssetPath "./" "" = "./" ++ "assets/thumbs/placeholder.svg"
    ∧ resolveAssetPath "../" "https://x.example/a.png" = "https://x.example/a.png"
    ∧ resolveAssetPath "../" "data:image/svg,x" = "data:image/svg,x"
    ∧ resolveAssetPath "../" "/assets/a.png" = "../" ++ stripLeadingSlash "/assets/a.png" :=
  ⟨resolve_asset_path_spec.1 "./",
   resolve_asset_path_spec.2.1 "../" "https://x.example/a.png" (by decide),
   resolve_asset_path_spec.2.2.1 "../" "data:image/svg,x" (by decide),
   resolve_asset_path_spec.2.2.2.1 "../" "/assets/a.png" (by decide) (by decide) (by decide)⟩

/-- C6: the featured selection of the code equals the spec description — the
records with `featured = true` truncated to the limit when some record is
featured, and the first `limit` records in load order when none is. -/
theorem featured_view_spec (projects : List ProjectRecord) (limit : Nat) :
    featuredList projects limit = specFeatured projects limit := by
  unfold featuredList specFeatured
  by_cases hall : projects.all (fun p => !p.featured) = true
  · have hfil : projects.filter (fun p => p.featured) = [] := by
      rw [List.filter_eq_nil_iff]
      intro a ha
      have h1 := List.all_eq_true.mp hall a ha
      simp at h1 ⊢
      exact h1
    rw [hfil, if_pos hall]
    simp
  · rw [if_neg hall]
    cases limit with
    | zero => simp
    | succ n =>
      have hfil : projects.filter (fun p => p.featured) ≠ [] := by
        intro he
        apply hall
        rw [List.all_eq_true]
        intro a ha
        have h1 := List.filter_eq_nil_iff.mp he a ha
        simp at h1 ⊢
        exact h1
      have htake : ((projects.filter fun p => p.featured).take (n + 1)).length ≠ 0 := by
        rw [Ne, List.length_eq_zero, List.take_eq_nil_iff]
        push_neg
        exact ⟨Nat.succ_ne_zero n, hfil⟩
      rw [if_neg htake]

/-- C5: the loader rejects with the message-carrying error exactly when the
response status is not ok; on an ok response whose parsed body is not an
array, it resolves with the empty list. -/
theorem load_error_spec (ok : Bool) (body : JVal) :
    ((∃ msg, loadProjects ok body = Except.error (LoadErr.loadError msg) ∧ msg ≠ "") ↔
      ok = false)
    ∧ (ok = true → isJArr body = false → loadProjects ok body = Except.ok []) := by
  constructor
  · constructor
    · rintro ⟨msg, hmsg, -⟩
      by_cases hok : ok = false
      · exact hok
      · exfalso
        rw [loadProjects, if_neg hok] at hmsg
        cases hpd : processData body with
        | some rs => rw [hpd] at hmsg; exact absurd hmsg (by simp)
        | none => rw [hpd] at hmsg; simp at hmsg
    · intro hok
      subst hok
      refine ⟨"Couldn\x27t load projects.json", ?_, by decide⟩
      rw [loadProjects, if_pos rfl]
  · intro hok hbody
    subst hok
    rw [loadProjects, if_neg (by simp)]
    have hpd : processData body = some [] := by
      cases body with
      | jarr xs => simp [isJArr] at hbody
      | jnull => rfl
      | jbool b => rfl
      | jnum n => rfl
      | jstr s => rfl
      | jobj fs => rfl
    rw [hpd]

/-- Witness for C5: an ok response with a non-array body resolves with the
empty list, and a failed response rejects with a non-empty message. -/
theorem load_error_spec_witness :
    loadProjects true (JVal.jstr "nope") = Except.ok []
    ∧ ∃ msg, loadProjects false JVal.jnull = Except.error (LoadErr.loadError msg)
        ∧ msg ≠ "" :=
  ⟨(load_error_spec true (JVal.jstr "nope")).2 rfl rfl,
   (load_error_spec false JVal.jnull).1.mpr rfl⟩

theorem normalizeProject_eq_some {x : JVal} {r : ProjectRecord} :
    normalizeProject x = some r ↔ x ≠ JVal.jnull ∧ r = normalizeFields x := by
  cases x <;> simp [normalizeProject] <;> exact eq_comm

/-- C3 counterexample: normalising the JSON value `null` — a value obtainable
from parsed JSON — throws a TypeError (property access on `null`), modelled
by `none`: no record is returned, so the normaliser does not accept every raw
input. -/
theorem normalize_null_cex :
    normalizeProject JVal.jnull = none
    ∧ ¬ ∃ r, normalizeProject JVal.jnull = some r := by
  refine ⟨rfl, ?_⟩
  rintro ⟨r, hr⟩
  simp [normalizeProject] at hr

/-- C3 (amended): for every parsed JSON value other than `null` the
normaliser never throws — it returns a record — and every missing or `null`
field takes its default from the data model (empty strings, empty tag list,
category `"Other"`, `featured = false`); a non-array tags value also yields
the empty tag list. -/
theorem normalize_total_spec (v : JVal) (hv : v ≠ JVal.jnull) :
    ∃ r, normalizeProject v = some r
      ∧ ((getProp v "title" = none ∨ getProp v "title" = some JVal.jnull) →
          r.title = "")
      ∧ ((getProp v "slug" = none ∨ getProp v "slug" = some JVal.jnull) →
          r.slug = "")
      ∧ ((getProp v "description" = none ∨ getProp v "description" = some JVal.jnull) →
          r.description = "")
      ∧ ((getProp v "thumbnail" = none ∨ getProp v "thumbnail" = some JVal.jnull) →
          r.thumbnail = "")
      ∧ ((∀ xs, getProp v "tags" ≠ some (JVal.jarr xs)) → r.tags = [])
      ∧ ((getProp v "category" = none ∨ getProp v "category" = some JVal.jnull) →
          r.category = "Other")
      ∧ ((getProp v "featured" = none ∨ getProp v "featured" = some JVal.jnull) →
          r.featured = false)
      ∧ ((getProp v "date" = none ∨ getProp v "date" = some JVal.jnull) → r.date = "")
      ∧ ((getProp v "link" = none ∨ getProp v "link" = some JVal.jnull) → r.link = "") := by
  refine ⟨normalizeFields v,
    normalizeProject_eq_some.mpr ⟨hv, rfl⟩, ?_, ?_, ?_, ?_, ?_, ?_, ?_, ?_, ?_⟩
  · intro h
    show jsTrim (jorString (getProp v "title") "") = ""
    rcases h with h | h <;> rw [h] <;> decide
  · intro h
    show jsTrim (jorString (getProp v "slug") "") = ""
    rcases h with h | h <;> rw [h] <;> decide
  · intro h
    show jsTrim (jorString (getProp v "description") "") = ""
    rcases h with h | h <;> rw [h] <;> decide
  · intro h
    show jsTrim (jorString (getProp v "thumbnail") "") = ""
    rcases h with h | h <;> rw [h] <;> decide
  · intro h
    show normTags (getProp v "tags") = []
    cases hg : getProp v "tags" with
    | none => rfl
    | some w =>
      cases w with
      | jarr xs => exact absurd hg (h xs)
      | jnull => rfl
      | jbool b => rfl
      | jnum n => rfl
      | jstr s => rfl
      | jobj fs => rfl
  · intro h
    show orOther (jsTrim (jorString (getProp v "category") "Other")) = "Other"
    rcases h with h | h <;> rw [h] <;> decide
  · intro h
    show truthyOpt (getProp v "featured") = false
    rcases h with h | h <;> rw [h] <;> decide
  · intro h
    show jsTrim (jorString (getProp v "date") "") = ""
    rcases h with h | h <;> rw [h] <;> decide
  · intro h
    show normLink (getProp v "link") = ""
    rcases h with h | h <;> rw [h] <;> decide

/-- Witness for C3 (amended): an object with a `null` title and nothing else
normalises to a record with the default (empty) title. -/
theorem normalize_total_spec_witness :
    ∃ r, normalizeProject (JVal.jobj [("title", JVal.jnull)]) = some r
      ∧ r.title = "" := by
  obtain ⟨r, h1, h2, -⟩ :=
    normalize_total_spec (JVal.jobj [("title", JVal.jnull)])
      (fun h => JVal.noConfusion h)
  exact ⟨r, h1, h2 (Or.inr rfl)⟩

theorem normTags_no_empty (v : Option JVal) : "" ∉ normTags v := by
  intro h
  cases v with
  | none => simp [normTags] at h
  | some w => cases w <;> simp [normTags, List.mem_filter] at h

theorem orOther_ne (s : String) : orOther s ≠ "" := by
  unfold orOther
  split
  · decide
  · assumption

theorem normalizeProject_invariants {x : JVal} {r : ProjectRecord}
    (h : normalizeProject x = some r) : "" ∉ r.tags ∧ r.category ≠ "" := by
  obtain ⟨-, rfl⟩ := normalizeProject_eq_some.mp h
  exact ⟨normTags_no_empty _, orOther_ne _⟩

theorem normalizeAll_mem : ∀ {xs : List JVal} {rs : List ProjectRecord},
    normalizeAll xs = some rs → ∀ r ∈ rs, ∃ x ∈ xs, normalizeProject x = some r := by
  intro xs
  induction xs with
  | nil =>
    intro rs h r hr
    rw [normalizeAll] at h
    cases h
    simp at hr
  | cons x xs ih =>
    intro rs h r hr
    rw [normalizeAll] at h
    cases hx : normalizeProject x with
    | none => rw [hx] at h; exact absurd h (by simp)
    | some r0 =>
      cases hxs : normalizeAll xs with
      | none => rw [hx, hxs] at h; exact absurd h (by simp)
      | some rs0 =>
        rw [hx, hxs] at h
        cases h
        rcases List.mem_cons.mp hr with rfl | hr2
        · exact ⟨x, List.mem_cons_self x xs, hx⟩
        · obtain ⟨y, hy, hyn⟩ := ih hxs r hr2
          exact ⟨y, List.mem_cons_of_mem x hy, hyn⟩

/-- C4: for every parsed body, every record of the loader's post-normalisation
output has non-empty title and slug, a tag sequence with no empty strings and
a non-empty category; and every record with an empty title or slug is
excluded from the output. -/
theorem load_invariants_spec (data : JVal) (out : List ProjectRecord)
    (h : processData data = some out) :
    (∀ p ∈ out, p.title ≠ "" ∧ p.slug ≠ "" ∧ "" ∉ p.tags ∧ p.category ≠ "")
    ∧ ∀ r : ProjectRecord, r.title = "" ∨ r.slug = "" → r ∉ out := by
  rw [processData] at h
  cases hna : normalizeAll (toElems data) with
  | none =>
    rw [hna] at h
    exact absurd h (by simp)
  | some rs =>
    rw [hna] at h
    change some (rs.filter fun p => p.title != "" && p.slug != "") = some out at h
    cases h
    constructor
    · intro p hp
      rw [List.mem_filter] at hp
      obtain ⟨hmem, hpred⟩ := hp
      rw [Bool.and_eq_true, bne_iff_ne, bne_iff_ne] at hpred
      obtain ⟨x, -, hx⟩ := normalizeAll_mem hna p hmem
      obtain ⟨htags, hcat⟩ := normalizeProject_invariants hx
      exact ⟨hpred.1, hpred.2, htags, hcat⟩
    · intro r hr hmem
      rw [List.mem_filter, Bool.and_eq_true, bne_iff_ne, bne_iff_ne] at hmem
      rcases hr with hr | hr
      · exact hmem.2.1 hr
      · exact hmem.2.2 hr

/-- Witness for C4: a loadable body with a blank-slug record (dropped) and a
record with a whitespace and an empty tag entry (both cleaned). -/
theorem load_invariants_spec_witness :
    (⟨"a", "a", "", "", ["x"], "Other", false, "", ""⟩ : ProjectRecord).title ≠ ""
    ∧ (⟨"a", "a", "", "", ["x"], "Other", false, "", ""⟩ : ProjectRecord).slug ≠ ""
    ∧ "" ∉ (⟨"a", "a", "", "", ["x"], "Other", false, "", ""⟩ : ProjectRecord).tags
    ∧ (⟨"a", "a", "", "", ["x"], "Other", false, "", ""⟩ : ProjectRecord).category ≠ "" :=
  (load_invariants_spec
    (JVal.jarr
      [JVal.jobj [("title", JVal.jstr "a"), ("slug", JVal.jstr "a"),
                  ("tags", JVal.jarr [JVal.jstr " x ", JVal.jstr ""])],
       JVal.jobj [("title", JVal.jstr "b"), ("slug", JVal.jstr "  ")]])
    [⟨"a", "a", "", "", ["x"], "Other", false, "", ""⟩] (by decide)).1
    ⟨"a", "a", "", "", ["x"], "Other", false, "", ""⟩ (by decide)

theorem jstr_field_trim {s : String} (hfix : jsTrim s = s) :
    jsTrim (jorString (some (JVal.jstr s)) "") = s := by
  by_cases h : s = ""
  · subst h; decide
  · show jsTrim (if truthy (JVal.jstr s) = true then jToString (JVal.jstr s) else "") = s
    rw [if_pos (by simp [truthy, h])]
    exact hfix

theorem category_field_fixed {s : String} (hfix : jsTrim s = s) (hne : s ≠ "") :
    orOther (jsTrim (jorString (some (JVal.jstr s)) "Other")) = s := by
  show orOther
    (jsTrim (if truthy (JVal.jstr s) = true then jToString (JVal.jstr s) else "Other")) = s
  rw [if_pos (by simp [truthy, hne])]
  show orOther (jsTrim s) = s
  rw [hfix]
  unfold orOther
  rw [if_neg hne]

theorem link_field_fixed {s : String} (hfix : jsTrim s = s) :
    normLink (some (JVal.jstr s)) = s := by
  by_cases h : s = ""
  · subst h; decide
  · show (if truthy (JVal.jstr s) = true then jsTrim (jToString (JVal.jstr s)) else "") = s
    rw [if_pos (by simp [truthy, h])]
    exact hfix

theorem tags_field_fixed {ts : List String} (h : ∀ t ∈ ts, jsTrim t = t ∧ t ≠ "") :
    normTags (some (JVal.jarr (ts.map JVal.jstr))) = ts := by
  show ((ts.map JVal.jstr).map fun t => jsTrim (jToString t)).filter (fun s => s != "") = ts
  rw [List.map_map]
  have h1 : ts.map ((fun t => jsTrim (jToString t)) ∘ JVal.jstr) = ts := by
    have h2 : ∀ t ∈ ts, ((fun t => jsTrim (jToString t)) ∘ JVal.jstr) t = id t :=
      fun t ht => (h t ht).1
    rw [List.map_congr_left h2, List.map_id]
  rw [h1, List.filter_eq_self.mpr]
  intro a ha
  simpa using (h a ha).2

theorem normalizeFields_fixed (r : ProjectRecord)
    (ht : jsTrim r.title = r.title) (hs : jsTrim r.slug = r.slug)
    (hd : jsTrim r.description = r.description)
    (hth : jsTrim r.thumbnail = r.thumbnail)
    (htag : ∀ t ∈ r.tags, jsTrim t = t ∧ t ≠ "")
    (hc : jsTrim r.category = r.category) (hcne : r.category ≠ "")
    (hdt : jsTrim r.date = r.date) (hl : jsTrim r.link = r.link) :
    normalizeFields (recordToJVal r) = r := by
  obtain ⟨t, s, d, th, tg, c, f, dt, l⟩ := r
  have heq : normalizeFields (recordToJVal (ProjectRecord.mk t s d th tg c f dt l)) =
      ProjectRecord.mk
        (jsTrim (jorString (some (JVal.jstr t)) ""))
        (jsTrim (jorString (some (JVal.jstr s)) ""))
        (jsTrim (jorString (some (JVal.jstr d)) ""))
        (jsTrim (jorString (some (JVal.jstr th)) ""))
        (normTags (some (JVal.jarr (tg.map JVal.jstr))))
        (orOther (jsTrim (jorString (some (JVal.jstr c)) "Other")))
        (truthyOpt (some (JVal.jbool f)))
        (jsTrim (jorString (some (JVal.jstr dt)) ""))
        (normLink (some (JVal.jstr l))) := rfl
  rw [heq, ProjectRecord.mk.injEq]
  exact ⟨jstr_field_trim ht, jstr_field_trim hs, jstr_field_trim hd,
    jstr_field_trim hth, tags_field_fixed htag, category_field_fixed hc hcne,
    rfl, jstr_field_trim hdt, link_field_fixed hl⟩

theorem normTags_mem {v : Option JVal} {t : String} (h : t ∈ normTags v) :
    jsTrim t = t ∧ t ≠ "" := by
  cases v with
  | none => simp [normTags] at h
  | some w =>
    cases w <;> simp [normTags, List.mem_filter, List.mem_map] at h
    case jarr xs =>
      obtain ⟨⟨u, -, rfl⟩, hne⟩ := h
      exact ⟨jsTrim_idem (jToString u), by simpa using hne⟩

theorem orOther_trim_fixed (y : String) :
    jsTrim (orOther (jsTrim y)) = orOther (jsTrim y) := by
  unfold orOther
  split
  · decide
  · exact jsTrim_idem y

theorem normLink_trim_fixed (v : Option JVal) : jsTrim (normLink v) = normLink v := by
  cases v with
  | none => decide
  | some w =>
    show jsTrim (if truthy w = true then jsTrim (jToString w) else "") =
      (if truthy w = true then jsTrim (jToString w) else "")
    by_cases h : truthy w = true
    · rw [if_pos h]; exact jsTrim_idem _
    · rw [if_neg h]; decide

/-- C8: normalisation is idempotent — whenever the normaliser returns a
record, feeding that record back in (as a JSON object) returns the identical
record, field by field. -/
theorem normalize_idempotent (p : JVal) (r : ProjectRecord)
    (h : normalizeProject p = some r) :
    normalizeProject (recordToJVal r) = some r := by
  obtain ⟨-, rfl⟩ := normalizeProject_eq_some.mp h
  refine normalizeProject_eq_some.mpr ⟨fun hq => JVal.noConfusion hq, ?_⟩
  refine (normalizeFields_fixed _ ?_ ?_ ?_ ?_ ?_ ?_ ?_ ?_ ?_).symm
  · exact jsTrim_idem _
  · exact jsTrim_idem _
  · exact jsTrim_idem _
  · exact jsTrim_idem _
  · exact fun t ht => normTags_mem ht
  · exact orOther_trim_fixed _
  · exact orOther_ne _
  · exact jsTrim_idem _
  · exact normLink_trim_fixed _

/-- Witness for C8: a record normalised from a raw object is a fixed point of
normalisation. -/
theorem normalize_idempotent_witness :
    normalizeProject (recordToJVal ⟨"A", "a", "", "", [], "Other", false, "", ""⟩) =
      some ⟨"A", "a", "", "", [], "Other", false, "", ""⟩ :=
  normalize_idempotent
    (JVal.jobj [("title", JVal.jstr " A "), ("slug", JVal.jstr "a")])
    ⟨"A", "a", "", "", [], "Other", false, "", ""⟩ (by decide)
